import Mathlib

/-!
# itests/kit/blockminer.go

A shallow embedding of the block miner test utility: the partition tracker
(`partitionTracker`, `recordIfPost`, `done`), the two timer loops
(`MineBlocks`, `MineBlocksMustPost`), the null round counter (`InjectNulls`)
and the one-shot `MineUntilBlock`.

Conventions of the embedding.

* `abi.ChainEpoch` and `int64` are `Int`; the places where Go arithmetic can
  wrap go through `wrapInt64`.
* `bitfield.BitField` (go-bitfield, an external library) is the finite set of
  its set bits, bit indices being `uint64`: `Set` inserts, `Count` is the
  cardinality, or the error of the library once bit `2^64 - 1` is set.
* The chain node, the message pool, the producer `MineOne` and the context are
  external collaborators. What they answer during one tick is an input record
  of the tick.
* A failed `require.*` marks the test failed and ends the goroutine
  (`FailNow`); it is the `Failure` carried by the result.
-/

namespace Kit

/-! ## Basic types -/

/-- Go `error` values, identified by a code. -/
structure GoError where
  code : Nat
deriving DecidableEq, Repr

deriving instance DecidableEq for Except

abbrev Address := Nat

abbrev MethodNum := Nat

abbrev ChainEpoch := Int

/-- Two's complement reduction of an integer to the `int64` range. -/
def wrapInt64 (x : Int) : Int :=
  (x + 9223372036854775808) % 18446744073709551616 - 9223372036854775808

/-- The `bitfield.BitField` of go-bitfield, as the set of its set bits. -/
abbrev BitField := Finset Nat

/-- `BitField.Set(bit)`. -/
def BitField.Set (bf : BitField) (bit : Nat) : BitField :=
  insert bit bf

/-- The error "RLE+ overflows" of `rlepluslazy.Count`. -/
def errRLEOverflows : GoError :=
  { code := 1 }

/-- The runs of the bitfield, up to its highest set bit, are longer in total
than a `uint64` holds: bit `2^64 - 1` is set. -/
def BitField.overflows (bf : BitField) : Prop :=
  ∃ i ∈ bf, 18446744073709551615 ≤ i

instance (bf : BitField) : Decidable bf.overflows :=
  inferInstanceAs (Decidable (∃ i ∈ bf, 18446744073709551615 ≤ i))

/-- `BitField.Count()`: the number of set bits. The count adds up the lengths
of all runs and returns "RLE+ overflows" when the total does not fit a
`uint64`. -/
def BitField.Count (bf : BitField) : Except GoError Nat :=
  if bf.overflows then .error errRLEOverflows else .ok bf.card

/-- `types.Message`, the fields read by the block miner. -/
structure Message where
  To : Address
  Method : MethodNum
  Params : List Nat
deriving DecidableEq, Repr

/-- `types.SignedMessage`. -/
structure SignedMessage where
  Message : Message
deriving DecidableEq, Repr

/-- `miner.PoStPartition`, the field read by the block miner. -/
structure PoStPartition where
  Index : Nat
deriving DecidableEq, Repr

/-- `aminer.SubmitWindowedPoStParams`, with the deadline it names and its
partition list. -/
structure SubmitWindowedPoStParams where
  Deadline : Nat
  Partitions : List PoStPartition
deriving DecidableEq, Repr

/-- `api.Partition`; the block miner only counts them. -/
structure Partition where
  AllSectors : List Nat
deriving DecidableEq, Repr

/-- `api.Deadline`. -/
structure Deadline where
  PostSubmissions : BitField
  DisputableProofCount : Nat
deriving DecidableEq

/-- What a failed `require.*` (or an index panic) of the block miner was
about. The goroutine that hits one does not go on. -/
inductive Failure where
  /-- `require.Equal(bm.t, int64(0), nulls, ...)` in `MineBlocksMustPost`. -/
  | nullsWhileMustPost (nulls : Int)
  /-- `require.NoError` on the answer of a node query. -/
  | query (e : GoError)
  /-- `require.NoError(t, params.UnmarshalCBOR(...))` in `recordIfPost`. -/
  | decode
  /-- `require.NoError(t, err)` on `p.posted.Count()` in `partitionTracker.count`. -/
  | count (e : GoError)
  /-- `dlines[dlIdx]` out of range in `newPartitionTracker`. -/
  | deadlineIndex (dlIdx : Nat)
  /-- `require.NoError(bm.t, mineErr)` and `require.NoError(bm.t, err)` in
  `MineUntilBlock`. -/
  | mine (e : GoError)
  /-- `require.NotEqual(bm.t, i, nloops-1, ...)` in `MineUntilBlock`. -/
  | neverSynced
  /-- `bm.t.Fatal("failed to Mine 1000 times in a row...")`. -/
  | retriesExhausted
deriving DecidableEq

/-- The part of the test miner the tracker reads: its actor address, the
method number `aminer.Methods.SubmitWindowedPoSt`, and the decoder
`SubmitWindowedPoStParams.UnmarshalCBOR` (`none` is a decode error). -/
structure TestMiner where
  ActorAddr : Address
  SubmitWindowedPoSt : MethodNum
  UnmarshalCBOR : List Nat → Option SubmitWindowedPoStParams

/-! ## partitionTracker -/

structure partitionTracker where
  partitions : List Partition
  posted : BitField
deriving DecidableEq

/-- `partitionTracker.count`: `p.posted.Count()` under `require.NoError`. -/
def partitionTracker.count (p : partitionTracker) : Except Failure Nat :=
  match p.posted.Count with
  | .error err => .error (.count err)
  | .ok pCnt => .ok pCnt

/-- `partitionTracker.done`: the number of partitions equals the number of
set bits; it fails where `count` does. -/
def partitionTracker.done (p : partitionTracker) : Except Failure Bool :=
  match p.count with
  | .error f => .error f
  | .ok pCnt => .ok (p.partitions.length == pCnt)

/-- The loop `for _, part := range params.Partitions { p.posted.Set(part.Index) }`. -/
def setAll (posted : BitField) : List PoStPartition → BitField
  | [] => posted
  | part :: rest => setAll (posted.Set part.Index) rest

/-- `partitionTracker.recordIfPost`. The tracker is mutated through its
pointer, so the tracker after the call is returned next to the result; the
result is that of the deferred `p.done(t)`, or the failure of the `require`
on the decode error. -/
def partitionTracker.recordIfPost (p : partitionTracker) (miner : TestMiner)
    (smsg : SignedMessage) : partitionTracker × Except Failure Bool :=
  let msg := smsg.Message
  if !(msg.To == miner.ActorAddr) then
    (p, p.done)
  else if msg.Method != miner.SubmitWindowedPoSt then
    (p, p.done)
  else
    match miner.UnmarshalCBOR msg.Params with
    | none => (p, .error .decode)
    | some params =>
      let p' : partitionTracker := { p with posted := setAll p.posted params.Partitions }
      (p', p'.done)

/-- The loop `for _, msg := range msgs { tracker.recordIfPost(bm.t, bm, msg) }`
over the pending messages. -/
def recordPending (p : partitionTracker) (miner : TestMiner) :
    List SignedMessage → partitionTracker × Except Failure Unit
  | [] => (p, .ok ())
  | msg :: rest =>
    match p.recordIfPost miner msg with
    | (p', .ok _) => recordPending p' miner rest
    | (p', .error f) => (p', .error f)

/-! ## BlockMiner and the null round counter -/

/-- A `context.CancelFunc`: the no-op installed by `NewBlockMiner`, or the
cancel of the context with the given identity. -/
inductive CancelFunc where
  | noop
  | ofContext (id : Nat)
deriving DecidableEq

/-- `BlockMiner`: `wg` is the counter of the wait group. -/
structure BlockMiner where
  miner : TestMiner
  nextNulls : Int
  wg : Nat
  cancel : CancelFunc

def NewBlockMiner (miner : TestMiner) : BlockMiner :=
  { miner := miner, nextNulls := 0, wg := 0, cancel := .noop }

/-- `BlockMiner.InjectNulls`: `atomic.AddInt64(&bm.nextNulls, int64(rounds))`. -/
def BlockMiner.InjectNulls (bm : BlockMiner) (rounds : ChainEpoch) : BlockMiner :=
  { bm with nextNulls := wrapInt64 (bm.nextNulls + rounds) }

/-- The read-and-reset `atomic.SwapInt64(&bm.nextNulls, 0)` of both loops:
the value read, and the block miner after it. -/
def BlockMiner.swapNextNulls (bm : BlockMiner) : Int × BlockMiner :=
  (bm.nextNulls, { bm with nextNulls := 0 })

/-! ## One tick of the loops -/

/-- How a goroutine stands after a tick: it goes round the loop again, it
returned, a `require` ended it, or it waits on a channel for good. -/
inductive Status where
  | next
  | exit
  | failed (f : Failure)
  | blocked
deriving DecidableEq

/-- What a stretch of a loop did: the `InjectNulls` of every `MineOne` call,
the errors given to `bm.t.Error`, and how the goroutine stands. -/
structure Trace where
  mineReqs : List ChainEpoch
  errors : List GoError
  status : Status
deriving DecidableEq

/-- The `switch` after `MineOne`, the same in both loops: the errors recorded
and how the loop goes on. `ctxErr` is `ctx.Err()`. -/
def afterMineOne (err : Option GoError) (ctxErr : Option GoError) : List GoError × Status :=
  match err, ctxErr with
  | none, _ => ([], .next)
  | some _, some _ => ([], .exit)
  | some e, none => ([e], .next)

/-- The `select` at the top of both loops. -/
inductive TimerWake where
  | timer
  | ctxDone
deriving DecidableEq

/-- What the producer and the context answer in one tick. -/
structure Producer where
  MineOne : Option GoError
  ctxErr : Option GoError
deriving DecidableEq

/-- The body of the `MineBlocks` loop after the `select` and the swap. -/
def MineBlocks.tick (nulls : Int) (prod : Producer) : Trace :=
  let r := afterMineOne prod.MineOne prod.ctxErr
  { mineReqs := [nulls], errors := r.1, status := r.2 }

/-- `api.MpoolChange`. -/
inductive MpoolChange where
  | MpoolAdd
  | MpoolRemove
deriving DecidableEq

/-- `api.MpoolUpdate`. -/
structure MpoolUpdate where
  UpdateType : MpoolChange
  Message : SignedMessage
deriving DecidableEq

/-- What the `select` of the `POOL` loop wakes up on. -/
inductive PoolWake where
  | ctxDone
  | event (evt : MpoolUpdate)
deriving DecidableEq

/-- `dline.Info`: its `Index` and the value of `Last()`. -/
structure DlInfo where
  Index : Nat
  Last : ChainEpoch
deriving DecidableEq

/-- What the full node answers during one tick. `ChainHead` is the height of
the tipset returned; `MpoolSub` is the order in which the `POOL` loop wakes
up on its channel and on the context. -/
structure FullNode where
  ChainHead : Except GoError ChainEpoch
  StateMinerProvingDeadline : Except GoError DlInfo
  StateMinerDeadlines : Except GoError (List Deadline)
  StateMinerPartitions : Nat → Except GoError (List Partition)
  MpoolSub : Except GoError (List PoolWake)
  MpoolPending : Except GoError (List SignedMessage)

def newPartitionTracker (node : FullNode) (dlIdx : Nat) : Except Failure partitionTracker :=
  match node.StateMinerDeadlines with
  | .error e => .error (.query e)
  | .ok dlines =>
    match dlines[dlIdx]? with
    | none => .error (.deadlineIndex dlIdx)
    | some dl =>
      match node.StateMinerPartitions dlIdx with
      | .error e => .error (.query e)
      | .ok parts => .ok { partitions := parts, posted := dl.PostSubmissions }

/-- How the check at the last epoch of a deadline ends. -/
inductive GateResult where
  | pass (p : partitionTracker)
  | cancelled (p : partitionTracker)
  | failed (f : Failure)
  | blocked (p : partitionTracker)
deriving DecidableEq

/-- The `POOL` loop: wait for the context or a pool event; an `MpoolAdd` goes
through `recordIfPost` and the loop breaks when that returns true. -/
def waitPool (miner : TestMiner) : partitionTracker → List PoolWake → GateResult
  | p, [] => .blocked p
  | p, .ctxDone :: _ => .cancelled p
  | p, .event evt :: rest =>
    if evt.UpdateType = .MpoolAdd then
      match p.recordIfPost miner evt.Message with
      | (_, .error f) => .failed f
      | (p', .ok true) => .pass p'
      | (p', .ok false) => waitPool miner p' rest
    else
      waitPool miner p rest

/-- The body of `if ts.Height()+1 == dlinfo.Last()`. -/
def gate (miner : TestMiner) (node : FullNode) (dlIdx : Nat) : GateResult :=
  match newPartitionTracker node dlIdx with
  | .error f => .failed f
  | .ok tracker =>
    match tracker.done with
    | .error f => .failed f
    | .ok true => .pass tracker
    | .ok false =>
      match node.MpoolSub with
      | .error e => .failed (.query e)
      | .ok poolEvts =>
        match node.MpoolPending with
        | .error e => .failed (.query e)
        | .ok msgs =>
          match recordPending tracker miner msgs with
          | (_, .error f) => .failed f
          | (tracker', .ok _) =>
            match tracker'.done with
            | .error f => .failed f
            | .ok true => .pass tracker'
            | .ok false => waitPool miner tracker' poolEvts

/-- What one tick of `MineBlocksMustPost` did, and the tracker it built. -/
structure MustPostResult extends Trace where
  tracker : Option partitionTracker
deriving DecidableEq

/-- The body of the `MineBlocksMustPost` loop after the `select` and the
swap. -/
def MineBlocksMustPost.tick (miner : TestMiner) (nulls : Int) (node : FullNode)
    (prod : Producer) : MustPostResult :=
  if nulls != 0 then
    { mineReqs := [], errors := [], status := .failed (.nullsWhileMustPost nulls), tracker := none }
  else
    match node.ChainHead with
    | .error e => { mineReqs := [], errors := [], status := .failed (.query e), tracker := none }
    | .ok height =>
      match node.StateMinerProvingDeadline with
      | .error e => { mineReqs := [], errors := [], status := .failed (.query e), tracker := none }
      | .ok dlinfo =>
        if wrapInt64 (height + 1) == dlinfo.Last then
          match gate miner node dlinfo.Index with
          | .failed f => { mineReqs := [], errors := [], status := .failed f, tracker := none }
          | .cancelled p => { mineReqs := [], errors := [], status := .exit, tracker := some p }
          | .blocked p => { mineReqs := [], errors := [], status := .blocked, tracker := some p }
          | .pass p => { MineBlocks.tick nulls prod with tracker := some p }
        else
          { MineBlocks.tick nulls prod with tracker := none }

/-! ## The loops -/

/-- What happens around one tick of `MineBlocks`: the `select`, the
`InjectNulls` calls made since the last swap, the producer. -/
structure Round where
  wake : TimerWake
  injected : List ChainEpoch
  prod : Producer

/-- One trace after another. -/
def Trace.andThen (a b : Trace) : Trace :=
  { mineReqs := a.mineReqs ++ b.mineReqs, errors := a.errors ++ b.errors, status := b.status }

/-- The goroutine of `MineBlocks`, along a schedule of rounds. At the end of
the schedule the loop is still running (`next`). -/
def MineBlocks.loop (bm : BlockMiner) : List Round → BlockMiner × Trace
  | [] => (bm, { mineReqs := [], errors := [], status := .next })
  | r :: rest =>
    match r.wake with
    | .ctxDone => (bm, { mineReqs := [], errors := [], status := .exit })
    | .timer =>
      let sw := (r.injected.foldl BlockMiner.InjectNulls bm).swapNextNulls
      let res := MineBlocks.tick sw.1 r.prod
      match res.status with
      | .next =>
        let more := MineBlocks.loop sw.2 rest
        (more.1, res.andThen more.2)
      | _ => (sw.2, res)

/-- What happens around one tick of `MineBlocksMustPost`. -/
structure MustPostRound extends Round where
  node : FullNode

/-- The goroutine of `MineBlocksMustPost`, along a schedule of rounds. -/
def MineBlocksMustPost.loop (bm : BlockMiner) : List MustPostRound → BlockMiner × Trace
  | [] => (bm, { mineReqs := [], errors := [], status := .next })
  | r :: rest =>
    match r.wake with
    | .ctxDone => (bm, { mineReqs := [], errors := [], status := .exit })
    | .timer =>
      let sw := (r.injected.foldl BlockMiner.InjectNulls bm).swapNextNulls
      let res := (MineBlocksMustPost.tick bm.miner sw.1 r.node r.prod).toTrace
      match res.status with
      | .next =>
        let more := MineBlocksMustPost.loop sw.2 rest
        (more.1, res.andThen more.2)
      | _ => (sw.2, res)

/-! ## Starting the loops -/

inductive LoopKind where
  | mineBlocks
  | mustPost
deriving DecidableEq

/-- A background goroutine: which loop it runs and under which context. -/
structure Goroutine where
  kind : LoopKind
  ctx : Nat
deriving DecidableEq

/-- A block miner with the goroutines started from it; `nextCtx` is the
identity `context.WithCancel` gives its next context. -/
structure Scheduler where
  bm : BlockMiner
  nextCtx : Nat
  goroutines : List Goroutine

/-- The part of both start functions outside the goroutine:
`ctx, bm.cancel = context.WithCancel(ctx)`, `bm.wg.Add(1)`, `go func() ...`. -/
def Scheduler.start (s : Scheduler) (kind : LoopKind) : Scheduler :=
  { bm := { s.bm with cancel := .ofContext s.nextCtx, wg := s.bm.wg + 1 }
    nextCtx := s.nextCtx + 1
    goroutines := s.goroutines ++ [{ kind := kind, ctx := s.nextCtx }] }

def BlockMiner.MineBlocks (s : Scheduler) : Scheduler :=
  s.start .mineBlocks

def BlockMiner.MineBlocksMustPost (s : Scheduler) : Scheduler :=
  s.start .mustPost

/-- A scheduler is running when it has a background goroutine. -/
def Scheduler.Running (s : Scheduler) : Prop :=
  s.goroutines ≠ []

/-! ## MineUntilBlock -/

/-- What one `MineOne` call of `MineUntilBlock` gives: its own error, and the
arguments `doneFn` is called with. -/
structure Attempt where
  mineErr : Option GoError
  win : Bool
  epoch : ChainEpoch
  err : Option GoError
deriving DecidableEq

/-- What `MineUntilBlock` did: the `MineOne` calls, the `ChainHead` calls, the
arguments `cb` was called with, and whether it returned. -/
structure UntilResult where
  attempts : Nat
  polls : Nat
  callbacks : List ChainEpoch
  outcome : Except Failure Unit
deriving DecidableEq

def nloops : Nat := 200

/-- The loop `for i := 0; i < nloops; i++` from iteration `i`, with `fuel`
iterations left: the number of `ChainHead` calls and how the loop ends.
`ChainHead k` is the answer to the call number `k`. -/
def waitForHead (ChainHead : Nat → Except GoError ChainEpoch) (epoch : ChainEpoch) :
    Nat → Nat → Nat × Except Failure Unit
  | _, 0 => (0, .ok ())
  | i, fuel + 1 =>
    match ChainHead i with
    | .error e => (1, .error (.query e))
    | .ok height =>
      if height == epoch then (1, .ok ())
      else if i == nloops - 1 then (1, .error .neverSynced)
      else
        let r := waitForHead ChainHead epoch (i + 1) fuel
        (r.1 + 1, r.2)

/-- The loop `for i := 0; i < 1000; i++` of `MineUntilBlock` from iteration
`i`, with `fuel` iterations left. `MineOne k` is what attempt `k` gives, and
`cb` says whether the callback is non-nil. -/
def MineUntilBlock.loop (MineOne : Nat → Attempt) (ChainHead : Nat → Except GoError ChainEpoch)
    (cb : Bool) : Nat → Nat → UntilResult
  | _, 0 => { attempts := 0, polls := 0, callbacks := [], outcome := .error .retriesExhausted }
  | i, fuel + 1 =>
    let a := MineOne i
    match a.mineErr with
    | some e => { attempts := 1, polls := 0, callbacks := [], outcome := .error (.mine e) }
    | none =>
      match a.err with
      | some e => { attempts := 1, polls := 0, callbacks := [], outcome := .error (.mine e) }
      | none =>
        if a.win then
          match waitForHead ChainHead a.epoch 0 nloops with
          | (n, .error f) => { attempts := 1, polls := n, callbacks := [], outcome := .error f }
          | (n, .ok _) =>
            { attempts := 1, polls := n, callbacks := if cb then [a.epoch] else [],
              outcome := .ok () }
        else
          let r := MineUntilBlock.loop MineOne ChainHead cb (i + 1) fuel
          { r with attempts := r.attempts + 1 }

def BlockMiner.MineUntilBlock (MineOne : Nat → Attempt)
    (ChainHead : Nat → Except GoError ChainEpoch) (cb : Bool) : UntilResult :=
  MineUntilBlock.loop MineOne ChainHead cb 0 1000

/-! ## Notions used by the statements -/

/-- The partition indices a parameter record names. -/
def partitionIndices (params : SubmitWindowedPoStParams) : Finset Nat :=
  (params.Partitions.map PoStPartition.Index).toFinset

/-- The message is addressed to the miner's actor and calls
`SubmitWindowedPoSt`. -/
def isPost (miner : TestMiner) (smsg : SignedMessage) : Prop :=
  smsg.Message.To = miner.ActorAddr ∧ smsg.Message.Method = miner.SubmitWindowedPoSt

instance (miner : TestMiner) (smsg : SignedMessage) : Decidable (isPost miner smsg) :=
  inferInstanceAs (Decidable (_ ∧ _))

/-- The partition indices a message contributes: those of its params when it
is a proof message that decodes, none otherwise. -/
def postedBy (miner : TestMiner) (smsg : SignedMessage) : Finset Nat :=
  if isPost miner smsg then
    match miner.UnmarshalCBOR smsg.Message.Params with
    | some params => partitionIndices params
    | none => ∅
  else ∅

/-- The partition indices a collection of messages contributes together. -/
def coveredBy (miner : TestMiner) (msgs : List SignedMessage) : Finset Nat :=
  msgs.toFinset.biUnion (postedBy miner)

/-- The messages of the `MpoolAdd` events in a wake order. -/
def addedMessages : List PoolWake → List SignedMessage
  | [] => []
  | .ctxDone :: rest => addedMessages rest
  | .event evt :: rest =>
    if evt.UpdateType = .MpoolAdd then evt.Message :: addedMessages rest
    else addedMessages rest

/-- The messages the node has for a tick: the pending ones, then the added
ones in the order of the event feed. -/
def nodeMessages (node : FullNode) : List SignedMessage :=
  (match node.MpoolPending with
    | .ok msgs => msgs
    | .error _ => []) ++
  (match node.MpoolSub with
    | .ok wakes => addedMessages wakes
    | .error _ => [])

/-! ## Example data -/

/-- A stand-in decoder for the examples: the first number is the deadline, the
others are the partition indices; empty params do not decode. -/
def exUnmarshal : List Nat → Option SubmitWindowedPoStParams
  | [] => none
  | d :: idxs => some { Deadline := d, Partitions := idxs.map PoStPartition.mk }

def exMiner : TestMiner :=
  { ActorAddr := 1000, SubmitWindowedPoSt := 5, UnmarshalCBOR := exUnmarshal }

/-- A proof message of the example miner for the given partition indices. -/
def exPost (idxs : List Nat) : SignedMessage :=
  { Message := { To := 1000, Method := 5, Params := 0 :: idxs } }

/-- A proof message of the example miner whose params do not decode. -/
def exBadPost : SignedMessage :=
  { Message := { To := 1000, Method := 5, Params := [] } }

/-- The highest bit index a `uint64` can name. -/
def maxUint64 : Nat := 18446744073709551615

/-- A tracker with `m` partitions and the given bits set. -/
def exTracker (m : Nat) (posted : List Nat) : partitionTracker :=
  { partitions := List.replicate m { AllSectors := [] }, posted := posted.toFinset }

/-- A full node for the examples: head at height 9, deadline 0 with last epoch
10 and `m` partitions, the given bits already posted, the given pending
messages and wake order of the event feed. -/
def exNode (m : Nat) (snapshot : List Nat) (pending : List SignedMessage)
    (wakes : List PoolWake) : FullNode :=
  { ChainHead := .ok 9
    StateMinerProvingDeadline := .ok { Index := 0, Last := 10 }
    StateMinerDeadlines := .ok [{ PostSubmissions := snapshot.toFinset, DisputableProofCount := 0 }]
    StateMinerPartitions := fun _ => .ok (List.replicate m { AllSectors := [] })
    MpoolSub := .ok wakes
    MpoolPending := .ok pending }

/-- A producer that mines without error. -/
def exProducer : Producer :=
  { MineOne := none, ctxErr := none }

/-- A producer for the examples: not selected five times, then selected at
epoch 42. -/
def exMineOne (i : Nat) : Attempt :=
  if i < 5 then { mineErr := none, win := false, epoch := 0, err := none }
  else { mineErr := none, win := true, epoch := 42, err := none }

/-- A full node for the examples whose head reaches epoch 42 at the fourth
call. -/
def exChainHead (k : Nat) : Except GoError ChainEpoch :=
  if k < 3 then .ok 41 else .ok 42

/-- A block miner that has not been started. -/
def exScheduler : Scheduler :=
  { bm := NewBlockMiner exMiner, nextCtx := 0, goroutines := [] }

/-! ## Lemmas on the tracker -/

theorem setAll_eq (posted : BitField) (parts : List PoStPartition) :
    setAll posted parts = posted ∪ (parts.map PoStPartition.Index).toFinset := by
  induction parts generalizing posted with
  | nil => simp [setAll]
  | cons part rest ih =>
    simp only [setAll, ih, BitField.Set, List.map_cons, List.toFinset_cons]
    ext i
    simp only [Finset.mem_union, Finset.mem_insert]
    tauto

theorem overflows_mono (s t : BitField) (hsub : s ⊆ t) (h : s.overflows) : t.overflows := by
  obtain ⟨i, hi, hle⟩ := h
  exact ⟨i, hsub hi, hle⟩

theorem done_of_not_overflows (p : partitionTracker) (h : ¬ p.posted.overflows) :
    p.done = .ok (decide (p.posted.card = p.partitions.length)) := by
  simp only [partitionTracker.done, partitionTracker.count, BitField.Count, h, if_false]
  congr 1
  rw [Bool.eq_iff_iff]
  simp only [beq_iff_eq, decide_eq_true_eq]
  exact eq_comm

theorem done_of_overflows (p : partitionTracker) (h : p.posted.overflows) :
    p.done = .error (.count errRLEOverflows) := by
  simp only [partitionTracker.done, partitionTracker.count, BitField.Count, h, if_true]

theorem done_iff (p : partitionTracker) :
    p.done = .ok true ↔ ¬ p.posted.overflows ∧ p.posted.card = p.partitions.length := by
  by_cases h : p.posted.overflows
  · rw [done_of_overflows p h]
    simp [h]
  · rw [done_of_not_overflows p h]
    simp [h]

theorem done_false_iff (p : partitionTracker) :
    p.done = .ok false ↔ ¬ p.posted.overflows ∧ p.posted.card ≠ p.partitions.length := by
  by_cases h : p.posted.overflows
  · rw [done_of_overflows p h]
    simp [h]
  · rw [done_of_not_overflows p h]
    simp [h]

theorem recordIfPost_of_not_isPost (p : partitionTracker) (miner : TestMiner)
    (smsg : SignedMessage) (h : ¬ isPost miner smsg) :
    p.recordIfPost miner smsg = (p, p.done) := by
  unfold isPost at h
  unfold partitionTracker.recordIfPost
  by_cases hto : smsg.Message.To = miner.ActorAddr
  · have hm : smsg.Message.Method ≠ miner.SubmitWindowedPoSt := fun hm => h ⟨hto, hm⟩
    simp [hto, hm]
  · simp [hto]

theorem recordIfPost_of_isPost (p : partitionTracker) (miner : TestMiner)
    (smsg : SignedMessage) (h : isPost miner smsg) :
    p.recordIfPost miner smsg =
      match miner.UnmarshalCBOR smsg.Message.Params with
      | none => (p, .error .decode)
      | some params =>
        ({ p with posted := p.posted ∪ partitionIndices params },
          partitionTracker.done { p with posted := p.posted ∪ partitionIndices params }) := by
  unfold isPost at h
  unfold partitionTracker.recordIfPost
  simp only [h.1, h.2, beq_self_eq_true, Bool.not_true, Bool.false_eq_true, if_false,
    bne_self_eq_false]
  cases hdec : miner.UnmarshalCBOR smsg.Message.Params with
  | none => rfl
  | some params => simp [setAll_eq, partitionIndices]

/-- The tracker after `recordIfPost`, whatever the result: it has gained the
indices the message contributes. -/
theorem recordIfPost_tracker (p : partitionTracker) (miner : TestMiner) (smsg : SignedMessage) :
    (p.recordIfPost miner smsg).1 = { p with posted := p.posted ∪ postedBy miner smsg } := by
  by_cases hp : isPost miner smsg
  · rw [recordIfPost_of_isPost p miner smsg hp]
    cases hdec : miner.UnmarshalCBOR smsg.Message.Params with
    | none => simp [postedBy, hp, hdec]
    | some params => simp [postedBy, hp, hdec]
  · rw [recordIfPost_of_not_isPost p miner smsg hp]
    simp [postedBy, hp]

/-- Whenever `recordIfPost` returns, the tracker has gained exactly the
indices the message contributes and the result is `done` of that tracker. -/
theorem recordIfPost_ok (p p' : partitionTracker) (miner : TestMiner) (smsg : SignedMessage)
    (b : Bool) (h : p.recordIfPost miner smsg = (p', .ok b)) :
    p' = { p with posted := p.posted ∪ postedBy miner smsg } ∧ p'.done = .ok b := by
  have htr := recordIfPost_tracker p miner smsg
  rw [h] at htr
  refine ⟨htr, ?_⟩
  by_cases hp : isPost miner smsg
  · rw [recordIfPost_of_isPost p miner smsg hp] at h
    cases hdec : miner.UnmarshalCBOR smsg.Message.Params with
    | none => simp [hdec] at h
    | some params =>
      simp only [hdec, Prod.mk.injEq] at h
      obtain ⟨h1, h2⟩ := h
      rw [← h1]
      exact h2
  · rw [recordIfPost_of_not_isPost p miner smsg hp] at h
    simp only [Prod.mk.injEq] at h
    obtain ⟨h1, h2⟩ := h
    rw [← h1]
    exact h2

theorem coveredBy_nil (miner : TestMiner) : coveredBy miner [] = ∅ := by
  simp [coveredBy]

theorem coveredBy_cons (miner : TestMiner) (msg : SignedMessage) (rest : List SignedMessage) :
    coveredBy miner (msg :: rest) = postedBy miner msg ∪ coveredBy miner rest := by
  simp [coveredBy, Finset.biUnion_insert]

theorem coveredBy_append (miner : TestMiner) (xs ys : List SignedMessage) :
    coveredBy miner (xs ++ ys) = coveredBy miner xs ∪ coveredBy miner ys := by
  ext i
  simp only [coveredBy, Finset.mem_biUnion, Finset.mem_union, List.mem_toFinset, List.mem_append]
  constructor
  · rintro ⟨m, hm | hm, hi⟩
    · exact Or.inl ⟨m, hm, hi⟩
    · exact Or.inr ⟨m, hm, hi⟩
  · rintro (⟨m, hm, hi⟩ | ⟨m, hm, hi⟩)
    · exact ⟨m, Or.inl hm, hi⟩
    · exact ⟨m, Or.inr hm, hi⟩

theorem mem_coveredBy (miner : TestMiner) (msgs : List SignedMessage) (i : Nat) :
    i ∈ coveredBy miner msgs ↔ ∃ msg ∈ msgs, i ∈ postedBy miner msg := by
  simp [coveredBy]

theorem coveredBy_perm (miner : TestMiner) (xs ys : List SignedMessage) (h : xs.Perm ys) :
    coveredBy miner xs = coveredBy miner ys := by
  simp [coveredBy, List.toFinset_eq_of_perm _ _ h]

/-- Whenever the loop over the pending messages runs through, the tracker has
gained exactly the indices the messages contribute. -/
theorem recordPending_ok (p p' : partitionTracker) (miner : TestMiner)
    (msgs : List SignedMessage) (u : Unit) (h : recordPending p miner msgs = (p', .ok u)) :
    p' = { p with posted := p.posted ∪ coveredBy miner msgs } := by
  induction msgs generalizing p with
  | nil =>
    simp only [recordPending, Prod.mk.injEq] at h
    simp [coveredBy_nil, ← h.1]
  | cons msg rest ih =>
    unfold recordPending at h
    rcases hr : p.recordIfPost miner msg with ⟨q, _ | b⟩
    · simp [hr] at h
    · simp only [hr] at h
      have hq := (recordIfPost_ok p q miner msg b hr).1
      have := ih q h
      rw [this, hq, coveredBy_cons]
      simp [Finset.union_assoc]

/-- The loop over messages that are all proof messages that decode runs
through, when the posted set it ends with does not overflow the count. -/
theorem recordPending_of_decodable (p : partitionTracker) (miner : TestMiner)
    (msgs : List SignedMessage)
    (h : ∀ msg ∈ msgs, isPost miner msg → miner.UnmarshalCBOR msg.Message.Params ≠ none)
    (hrange : ¬ (p.posted ∪ coveredBy miner msgs).overflows) :
    recordPending p miner msgs =
      ({ p with posted := p.posted ∪ coveredBy miner msgs }, .ok ()) := by
  induction msgs generalizing p with
  | nil => simp [recordPending, coveredBy_nil]
  | cons msg rest ih =>
    have hmsg := h msg (List.mem_cons_self _ _)
    have hstep : ∃ b, p.recordIfPost miner msg =
        ({ p with posted := p.posted ∪ postedBy miner msg }, .ok b) := by
      have hsub : p.posted ∪ postedBy miner msg ⊆ p.posted ∪ coveredBy miner (msg :: rest) := by
        rw [coveredBy_cons, ← Finset.union_assoc]
        exact Finset.subset_union_left
      have hno : ¬ (p.posted ∪ postedBy miner msg).overflows :=
        fun ho => hrange (overflows_mono _ _ hsub ho)
      have hdone := done_of_not_overflows
        { p with posted := p.posted ∪ postedBy miner msg } hno
      refine ⟨decide ((p.posted ∪ postedBy miner msg).card = p.partitions.length), ?_⟩
      by_cases hp : isPost miner msg
      · rw [recordIfPost_of_isPost p miner msg hp]
        cases hdec : miner.UnmarshalCBOR msg.Message.Params with
        | none => exact absurd hdec (hmsg hp)
        | some params =>
          have hpb : postedBy miner msg = partitionIndices params := by
            simp [postedBy, hp, hdec]
          simp only [← hpb, hdone]
      · rw [recordIfPost_of_not_isPost p miner msg hp]
        have hpb : postedBy miner msg = ∅ := by simp [postedBy, hp]
        rw [hpb, Finset.union_empty] at hdone
        simp only [hpb, Finset.union_empty, hdone]
    obtain ⟨b, hb⟩ := hstep
    unfold recordPending
    simp only [hb]
    have hrest := ih { p with posted := p.posted ∪ postedBy miner msg }
      (fun m hm => h m (List.mem_cons_of_mem _ hm))
      (by
        simp only
        rw [Finset.union_assoc, ← coveredBy_cons]
        exact hrange)
    rw [hrest]
    simp only [coveredBy_cons, Finset.union_assoc]

/-! ## recordIfPost -/

/-- C2, as the claim states it, fails: on a proof message of the miner that
decodes and names the partition index 2^64 - 1, `recordIfPost` sets the bit
and then returns no boolean, the `require.NoError` on `posted.Count()` in the
deferred `done` fails. -/
theorem recordIfPost_count_error_example :
    ((exTracker 3 []).recordIfPost exMiner (exPost [maxUint64])).1.posted = {maxUint64} ∧
    ((exTracker 3 []).recordIfPost exMiner (exPost [maxUint64])).2
      = .error (.count errRLEOverflows) ∧
    ¬ ∃ b, ((exTracker 3 []).recordIfPost exMiner (exPost [maxUint64])).2 = .ok b := by
  decide

/-- C2, amended: for a message addressed to the miner's actor with method
`SubmitWindowedPoSt` whose params decode, `recordIfPost` leaves the posted set
equal to the old one united with the decoded partition indices; for any other
message it leaves the posted set unchanged; in both cases the partition list
is unchanged. When `Count()` of the resulting posted set succeeds (bit
2^64 - 1 is not set) the boolean returned is true iff the number of set bits
of the resulting posted set equals the number of partitions; when `Count()`
fails, `recordIfPost` fails on the `require.NoError` of `count` and returns
no boolean. -/
theorem recordIfPost_posted (p : partitionTracker) (miner : TestMiner) (smsg : SignedMessage) :
    (∀ params, smsg.Message.To = miner.ActorAddr →
      smsg.Message.Method = miner.SubmitWindowedPoSt →
      miner.UnmarshalCBOR smsg.Message.Params = some params →
      (p.recordIfPost miner smsg).1.posted = p.posted ∪ partitionIndices params ∧
      (p.recordIfPost miner smsg).1.partitions = p.partitions ∧
      ((∀ i ∈ p.posted ∪ partitionIndices params, i < 18446744073709551615) →
        (p.recordIfPost miner smsg).2 = .ok (decide
          ((p.posted ∪ partitionIndices params).card = p.partitions.length))) ∧
      ((∃ i ∈ p.posted ∪ partitionIndices params, 18446744073709551615 ≤ i) →
        (p.recordIfPost miner smsg).2 = .error (.count errRLEOverflows))) ∧
    (¬ (smsg.Message.To = miner.ActorAddr ∧
        smsg.Message.Method = miner.SubmitWindowedPoSt) →
      (p.recordIfPost miner smsg).1 = p ∧
      ((∀ i ∈ p.posted, i < 18446744073709551615) →
        (p.recordIfPost miner smsg).2 = .ok (decide (p.posted.card = p.partitions.length))) ∧
      ((∃ i ∈ p.posted, 18446744073709551615 ≤ i) →
        (p.recordIfPost miner smsg).2 = .error (.count errRLEOverflows))) := by
  have hno : ∀ s : BitField, (∀ i ∈ s, i < 18446744073709551615) → ¬ s.overflows := by
    rintro s hs ⟨i, hi, hle⟩
    exact absurd (hs i hi) (by omega)
  constructor
  · intro params hto hmethod hdec
    rw [recordIfPost_of_isPost p miner smsg ⟨hto, hmethod⟩, hdec]
    refine ⟨rfl, rfl, ?_, ?_⟩
    · intro hs
      exact done_of_not_overflows _ (hno _ hs)
    · intro hs
      exact done_of_overflows _ hs
  · intro h
    rw [recordIfPost_of_not_isPost p miner smsg h]
    refine ⟨rfl, ?_, ?_⟩
    · intro hs
      exact done_of_not_overflows _ (hno _ hs)
    · intro hs
      exact done_of_overflows _ hs

theorem recordIfPost_posted_witness :
    ((exTracker 3 []).recordIfPost exMiner (exPost [0, 1])).2 = .ok (decide
      (((exTracker 3 []).posted ∪
        partitionIndices { Deadline := 0, Partitions := [⟨0⟩, ⟨1⟩] }).card =
        (exTracker 3 []).partitions.length)) :=
  ((recordIfPost_posted (exTracker 3 []) exMiner (exPost [0, 1])).1
    { Deadline := 0, Partitions := [⟨0⟩, ⟨1⟩] } rfl rfl rfl).2.2.1 (by decide)

/-- C4, as the claim states it, fails: on a proof message whose params do not
decode `recordIfPost` does not return a boolean, the `require.NoError` on the
decode error fails. -/
theorem decode_error_fails_the_test :
    (exTracker 3 []).recordIfPost exMiner exBadPost = (exTracker 3 [], .error .decode) ∧
    ¬ ∃ b, ((exTracker 3 []).recordIfPost exMiner exBadPost).2 = .ok b := by
  decide

/-- C4, amended: for a message addressed to the miner's actor with method
`SubmitWindowedPoSt` whose params fail to decode, `recordIfPost` fails on the
`require.NoError` of the decode error; no bit has been set at that point, so
the posted set and `done()` are as before the call. -/
theorem recordIfPost_decode_failure (p : partitionTracker) (miner : TestMiner)
    (smsg : SignedMessage) (hto : smsg.Message.To = miner.ActorAddr)
    (hmethod : smsg.Message.Method = miner.SubmitWindowedPoSt)
    (hdec : miner.UnmarshalCBOR smsg.Message.Params = none) :
    (p.recordIfPost miner smsg).2 = .error .decode ∧
    (p.recordIfPost miner smsg).1.posted = p.posted ∧
    (p.recordIfPost miner smsg).1.done = p.done := by
  rw [recordIfPost_of_isPost p miner smsg ⟨hto, hmethod⟩, hdec]
  exact ⟨rfl, rfl, rfl⟩

theorem recordIfPost_decode_failure_witness :
    ((exTracker 3 [0]).recordIfPost exMiner exBadPost).2 = .error .decode ∧
    ((exTracker 3 [0]).recordIfPost exMiner exBadPost).1.posted = (exTracker 3 [0]).posted ∧
    ((exTracker 3 [0]).recordIfPost exMiner exBadPost).1.done = (exTracker 3 [0]).done :=
  recordIfPost_decode_failure (exTracker 3 [0]) exMiner exBadPost rfl rfl rfl

/-! ## Completion of the tracker -/

theorem postedBy_of_decodes (miner : TestMiner) (msg : SignedMessage)
    (params : SubmitWindowedPoStParams) (hp : isPost miner msg)
    (hdec : miner.UnmarshalCBOR msg.Message.Params = some params) :
    postedBy miner msg = partitionIndices params := by
  simp [postedBy, hp, hdec]

/-- Distinct messages of one new partition each add one bit each. -/
theorem card_union_coveredBy_singletons (miner : TestMiner) (posted : Finset Nat)
    (msgs : List SignedMessage)
    (hone : ∀ msg ∈ msgs, ∃ i, postedBy miner msg = {i} ∧ i ∉ posted)
    (hdistinct : (msgs.map (postedBy miner)).Nodup) :
    (posted ∪ coveredBy miner msgs).card = posted.card + msgs.length := by
  induction msgs with
  | nil => simp [coveredBy_nil]
  | cons msg rest ih =>
    obtain ⟨i, hi, hnot⟩ := hone msg (List.mem_cons_self _ _)
    rw [List.map_cons, List.nodup_cons] at hdistinct
    have hrest := ih (fun m hm => hone m (List.mem_cons_of_mem _ hm)) hdistinct.2
    have hfresh : i ∉ posted ∪ coveredBy miner rest := by
      rw [Finset.mem_union, mem_coveredBy]
      rintro (h | ⟨m, hm, hmi⟩)
      · exact hnot h
      · obtain ⟨k, hk, _⟩ := hone m (List.mem_cons_of_mem _ hm)
        rw [hk, Finset.mem_singleton] at hmi
        apply hdistinct.1
        rw [List.mem_map]
        exact ⟨m, hm, by rw [hk, hi, hmi]⟩
    have hset : posted ∪ coveredBy miner (msg :: rest) =
        insert i (posted ∪ coveredBy miner rest) := by
      rw [coveredBy_cons, hi]
      ext k
      simp only [Finset.mem_union, Finset.mem_insert, Finset.mem_singleton]
      tauto
    rw [hset, Finset.card_insert_of_not_mem hfresh, hrest, List.length_cons]
    omega

/-- C3, as the claim states it, fails: with 2 partitions, none posted, the
proof messages for the partition indices {0, 2} and {1} together cover the
remaining indices 0 and 1; folding them through `recordIfPost` runs through
and ends with `done()` false, and `done()` is true after the first message
alone, which leaves index 1 uncovered. -/
theorem cover_with_foreign_index_example :
    (∀ i < (exTracker 2 []).partitions.length,
      ∃ msg ∈ [exPost [0, 2], exPost [1]], i ∈ postedBy exMiner msg) ∧
    (recordPending (exTracker 2 []) exMiner [exPost [0, 2], exPost [1]]).2 = .ok () ∧
    (recordPending (exTracker 2 []) exMiner [exPost [0, 2], exPost [1]]).1.done = .ok false ∧
    (recordPending (exTracker 2 []) exMiner [exPost [0, 2]]).1.done = .ok true ∧
    1 ∉ (recordPending (exTracker 2 []) exMiner [exPost [0, 2]]).1.posted := by
  decide

/-- C3, amended: take a tracker with m partitions (m a slice length, at most
2^63 - 1) whose posted set holds indices below m only, and proof messages of
the miner that decode, name partition indices below m only and together cover
every index below m that is not yet posted. Then folding them through
`recordIfPost` runs through and ends with `done()` true; every permutation of
the messages gives the same result; `done()` is false after any prefix that
leaves an index below m uncovered; and when every message names one remaining
partition, each a different one, there are m - k messages (k the number of
bits posted at the start) and `done()` is true after n of them exactly when
m - k ≤ n. -/
theorem tracker_done_after_cover (p : partitionTracker) (miner : TestMiner)
    (msgs : List SignedMessage)
    (hlen : p.partitions.length ≤ 9223372036854775807)
    (hposted : ∀ i ∈ p.posted, i < p.partitions.length)
    (hmsgs : ∀ msg ∈ msgs, isPost miner msg ∧
      ∃ params, miner.UnmarshalCBOR msg.Message.Params = some params ∧
        ∀ i ∈ partitionIndices params, i < p.partitions.length)
    (hcover : ∀ i < p.partitions.length,
      i ∈ p.posted ∨ ∃ msg ∈ msgs, i ∈ postedBy miner msg) :
    (∃ p', recordPending p miner msgs = (p', .ok ()) ∧ p'.done = .ok true) ∧
    (∀ msgs', msgs'.Perm msgs → recordPending p miner msgs' = recordPending p miner msgs) ∧
    (∀ n, (∃ i < p.partitions.length, i ∉ p.posted ∧
          ∀ msg ∈ msgs.take n, i ∉ postedBy miner msg) →
      ∃ q, recordPending p miner (msgs.take n) = (q, .ok ()) ∧ q.done = .ok false) ∧
    ((∀ msg ∈ msgs, ∃ i, postedBy miner msg = {i} ∧ i ∉ p.posted) →
      (msgs.map (postedBy miner)).Nodup →
      msgs.length = p.partitions.length - p.posted.card ∧
      ∀ n, (recordPending p miner (msgs.take n)).1.done = .ok true ↔
        p.partitions.length - p.posted.card ≤ n) := by
  have hdecodes : ∀ l : List SignedMessage, (∀ msg ∈ l, msg ∈ msgs) →
      ∀ msg ∈ l, isPost miner msg → miner.UnmarshalCBOR msg.Message.Params ≠ none := by
    intro l hl msg hm _ hnone
    obtain ⟨_, params, hdec, _⟩ := hmsgs msg (hl msg hm)
    rw [hdec] at hnone
    exact Option.noConfusion hnone
  have hbelow : ∀ l : List SignedMessage, (∀ msg ∈ l, msg ∈ msgs) →
      p.posted ∪ coveredBy miner l ⊆ Finset.range p.partitions.length := by
    intro l hl i hi
    rw [Finset.mem_range]
    rw [Finset.mem_union, mem_coveredBy] at hi
    rcases hi with hi | ⟨msg, hm, hi⟩
    · exact hposted i hi
    · obtain ⟨hp, params, hdec, hlt⟩ := hmsgs msg (hl msg hm)
      rw [postedBy_of_decodes miner msg params hp hdec] at hi
      exact hlt i hi
  have hrange : ∀ l : List SignedMessage, (∀ msg ∈ l, msg ∈ msgs) →
      ¬ (p.posted ∪ coveredBy miner l).overflows := by
    rintro l hl ⟨i, hi, hle⟩
    have := Finset.mem_range.mp (hbelow l hl hi)
    omega
  have hfold : ∀ l : List SignedMessage, (∀ msg ∈ l, msg ∈ msgs) →
      recordPending p miner l = ({ p with posted := p.posted ∪ coveredBy miner l }, .ok ()) :=
    fun l hl => recordPending_of_decodable p miner l (hdecodes l hl) (hrange l hl)
  have hall : p.posted ∪ coveredBy miner msgs = Finset.range p.partitions.length := by
    apply Finset.Subset.antisymm (hbelow msgs (fun _ h => h))
    intro i hi
    rw [Finset.mem_range] at hi
    rw [Finset.mem_union, mem_coveredBy]
    exact hcover i hi
  have htake : ∀ n, ∀ msg ∈ msgs.take n, msg ∈ msgs := fun n msg hm => List.mem_of_mem_take hm
  refine ⟨?_, ?_, ?_, ?_⟩
  · refine ⟨_, hfold msgs (fun _ h => h), ?_⟩
    rw [done_iff]
    refine ⟨hrange msgs (fun _ h => h), ?_⟩
    simp only [hall, Finset.card_range]
  · intro msgs' hperm
    rw [hfold msgs (fun _ h => h), hfold msgs' (fun msg hm => hperm.subset hm),
      coveredBy_perm miner msgs' msgs hperm]
  · rintro n ⟨i, hi, hnot, hnone⟩
    refine ⟨_, hfold (msgs.take n) (htake n), ?_⟩
    rw [done_false_iff]
    refine ⟨hrange _ (htake n), ?_⟩
    have hsub : p.posted ∪ coveredBy miner (msgs.take n) ⊂
        Finset.range p.partitions.length := by
      rw [Finset.ssubset_iff_of_subset (hbelow _ (htake n))]
      refine ⟨i, Finset.mem_range.mpr hi, ?_⟩
      rw [Finset.mem_union, mem_coveredBy]
      rintro (h | ⟨msg, hm, h⟩)
      · exact hnot h
      · exact hnone msg hm h
    have hcard := Finset.card_lt_card hsub
    rw [Finset.card_range] at hcard
    exact Nat.ne_of_lt hcard
  · intro hone hdistinct
    have hcount := card_union_coveredBy_singletons miner p.posted msgs hone hdistinct
    rw [hall, Finset.card_range] at hcount
    refine ⟨by omega, ?_⟩
    intro n
    rw [hfold (msgs.take n) (htake n), done_iff]
    have hn := card_union_coveredBy_singletons miner p.posted (msgs.take n)
      (fun msg hm => hone msg (htake n msg hm))
      ((List.take_sublist n msgs).map (postedBy miner) |>.nodup hdistinct)
    simp only [hn, List.length_take]
    constructor
    · rintro ⟨_, h⟩
      omega
    · intro h
      exact ⟨hrange _ (htake n), by omega⟩

theorem tracker_done_after_cover_witness :
    (∃ p', recordPending (exTracker 3 []) exMiner [exPost [0, 1], exPost [2]] = (p', .ok ()) ∧
      p'.done = .ok true) ∧
    (exTracker 3 []).done = .ok false ∧
    ((exTracker 3 []).recordIfPost exMiner (exPost [0, 1])).2 = .ok false ∧
    (((exTracker 3 []).recordIfPost exMiner (exPost [0, 1])).1.recordIfPost exMiner
      (exPost [2])).2 = .ok true :=
  ⟨(tracker_done_after_cover (exTracker 3 []) exMiner [exPost [0, 1], exPost [2]]
      (by decide)
      (by decide)
      (by
        intro msg hm
        simp only [List.mem_cons, List.mem_singleton, List.not_mem_nil, or_false] at hm
        rcases hm with rfl | rfl
        · exact ⟨by decide, _, rfl, by decide⟩
        · exact ⟨by decide, _, rfl, by decide⟩)
      (by decide)).1,
    by decide, by decide, by decide⟩

/-! ## The null round counter -/

theorem wrapInt64_add_wrapInt64 (a b : Int) :
    wrapInt64 (wrapInt64 a + b) = wrapInt64 (a + b) := by
  unfold wrapInt64
  omega

theorem wrapInt64_of_inRange (x : Int) (hlo : -9223372036854775808 ≤ x)
    (hhi : x < 9223372036854775808) : wrapInt64 x = x := by
  unfold wrapInt64
  omega

theorem foldl_InjectNulls (bm : BlockMiner) (x : Int) (ns : List ChainEpoch)
    (h : bm.nextNulls = wrapInt64 x) :
    (ns.foldl BlockMiner.InjectNulls bm).nextNulls = wrapInt64 (x + ns.sum) := by
  induction ns generalizing bm x with
  | nil => simpa using h
  | cons n rest ih =>
    rw [List.foldl_cons, ih (bm.InjectNulls n) (x + n), List.sum_cons, Int.add_assoc]
    simp only [BlockMiner.InjectNulls, h, wrapInt64_add_wrapInt64]

/-- C5: after a tick's read-and-reset of `nextNulls`, the calls
`InjectNulls(n_1)`, ..., `InjectNulls(n_j)` make the next read-and-reset
return `n_1 + ... + n_j` in `int64` arithmetic (the sum itself when it is in
the `int64` range) and leave the counter at 0, so the read-and-reset after
that returns 0; the `MineBlocks` loop hands exactly these two values to the
producer in the two ticks. -/
theorem injectNulls_sum (bm : BlockMiner) (ns : List ChainEpoch) :
    ((ns.foldl BlockMiner.InjectNulls bm.swapNextNulls.2).swapNextNulls).1 = wrapInt64 ns.sum ∧
    (-9223372036854775808 ≤ ns.sum → ns.sum < 9223372036854775808 →
      ((ns.foldl BlockMiner.InjectNulls bm.swapNextNulls.2).swapNextNulls).1 = ns.sum) ∧
    ((ns.foldl BlockMiner.InjectNulls bm.swapNextNulls.2).swapNextNulls).2.nextNulls = 0 ∧
    (((ns.foldl BlockMiner.InjectNulls bm.swapNextNulls.2).swapNextNulls).2.swapNextNulls).1 = 0 ∧
    (MineBlocks.loop bm.swapNextNulls.2
      [{ wake := .timer, injected := ns, prod := exProducer },
       { wake := .timer, injected := [], prod := exProducer }]).2.mineReqs
      = [wrapInt64 ns.sum, 0] := by
  have hsum : (ns.foldl BlockMiner.InjectNulls bm.swapNextNulls.2).nextNulls =
      wrapInt64 ns.sum := by
    have := foldl_InjectNulls bm.swapNextNulls.2 0 ns (by simp [BlockMiner.swapNextNulls, wrapInt64])
    simpa using this
  refine ⟨hsum, ?_, rfl, rfl, ?_⟩
  · intro hlo hhi
    exact hsum.trans (wrapInt64_of_inRange _ hlo hhi)
  · have hsum' := hsum
    simp only [BlockMiner.swapNextNulls] at hsum'
    simp [MineBlocks.loop, MineBlocks.tick, afterMineOne, exProducer, Trace.andThen,
      BlockMiner.swapNextNulls, hsum']

theorem injectNulls_sum_witness :
    ((([2, 3, -1] : List ChainEpoch).foldl BlockMiner.InjectNulls
      (NewBlockMiner exMiner).swapNextNulls.2).swapNextNulls).1 = 4 :=
  (injectNulls_sum (NewBlockMiner exMiner) [2, 3, -1]).2.1 (by decide) (by decide)

/-! ## The check at the last epoch of a deadline -/

/-- When the `POOL` loop breaks, the tracker is done and has gained the
indices of the added messages it went through. -/
theorem waitPool_pass (miner : TestMiner) (p q : partitionTracker) (wakes : List PoolWake)
    (h : waitPool miner p wakes = .pass q) :
    q.done = .ok true ∧ ∃ folded, folded <+: addedMessages wakes ∧
      q = { p with posted := p.posted ∪ coveredBy miner folded } := by
  induction wakes generalizing p with
  | nil => simp [waitPool] at h
  | cons wake rest ih =>
    cases wake with
    | ctxDone => simp [waitPool] at h
    | event evt =>
      unfold waitPool at h
      by_cases hadd : evt.UpdateType = .MpoolAdd
      · simp only [hadd, if_true] at h
        rcases hr : p.recordIfPost miner evt.Message with ⟨p', _ | b⟩
        · simp [hr] at h
        · obtain ⟨hp', hb⟩ := recordIfPost_ok p p' miner evt.Message b hr
          cases b with
          | true =>
            simp only [hr, GateResult.pass.injEq] at h
            subst h
            refine ⟨hb, [evt.Message], ?_, ?_⟩
            · simp [addedMessages, hadd]
            · rw [hp', coveredBy_cons, coveredBy_nil, Finset.union_empty]
          | false =>
            simp only [hr] at h
            obtain ⟨hdone, folded, hpre, hq⟩ := ih p' h
            refine ⟨hdone, evt.Message :: folded, ?_, ?_⟩
            · simp only [addedMessages, hadd, if_true]
              exact (List.prefix_cons_inj evt.Message).mpr hpre
            · rw [hq, hp', coveredBy_cons]
              simp [Finset.union_assoc]
      · simp only [hadd, if_false] at h
        obtain ⟨hdone, folded, hpre, hq⟩ := ih p h
        refine ⟨hdone, folded, ?_, hq⟩
        simpa [addedMessages, hadd] using hpre

/-- Wakes that leave the `POOL` loop waiting are followed by the rest of the
wake order. -/
theorem waitPool_append (miner : TestMiner) (p q : partitionTracker)
    (pre rest : List PoolWake) (h : waitPool miner p pre = .blocked q) :
    waitPool miner p (pre ++ rest) = waitPool miner q rest := by
  induction pre generalizing p with
  | nil =>
    simp only [waitPool, GateResult.blocked.injEq] at h
    simp [h]
  | cons wake pre ih =>
    cases wake with
    | ctxDone => simp [waitPool] at h
    | event evt =>
      rw [List.cons_append]
      by_cases hadd : evt.UpdateType = .MpoolAdd
      · simp only [waitPool, hadd, if_true] at h ⊢
        rcases hr : p.recordIfPost miner evt.Message with ⟨p', _ | b⟩
        · simp [hr] at h
        · cases b with
          | true => simp [hr] at h
          | false =>
            simp only [hr] at h ⊢
            exact ih p' h
      · simp only [waitPool, hadd, if_false] at h ⊢
        exact ih p h

/-- When the check passes, the tracker is done, its partitions are those of
the deadline, and its posted set is the snapshot united with the indices of
the messages it went through. -/
theorem gate_pass (miner : TestMiner) (node : FullNode) (dlIdx : Nat) (tr : partitionTracker)
    (h : gate miner node dlIdx = .pass tr) :
    tr.done = .ok true ∧ ∃ dlines dl folded,
      node.StateMinerDeadlines = .ok dlines ∧ dlines[dlIdx]? = some dl ∧
      node.StateMinerPartitions dlIdx = .ok tr.partitions ∧
      folded <+: nodeMessages node ∧
      tr.posted = dl.PostSubmissions ∪ coveredBy miner folded := by
  unfold gate at h
  rcases hnew : newPartitionTracker node dlIdx with f | tracker
  · simp [hnew] at h
  · simp only [hnew] at h
    have hsnap : ∃ dlines dl, node.StateMinerDeadlines = .ok dlines ∧
        dlines[dlIdx]? = some dl ∧ node.StateMinerPartitions dlIdx = .ok tracker.partitions ∧
        tracker.posted = dl.PostSubmissions := by
      unfold newPartitionTracker at hnew
      rcases hd : node.StateMinerDeadlines with e | dlines
      · simp [hd] at hnew
      · rcases hg : dlines[dlIdx]? with _ | dl
        · simp [hd, hg] at hnew
        · rcases hp : node.StateMinerPartitions dlIdx with e | parts
          · simp [hd, hg, hp] at hnew
          · simp only [hd, hg, hp, Except.ok.injEq] at hnew
            subst hnew
            exact ⟨dlines, dl, rfl, hg, rfl, rfl⟩
    obtain ⟨dlines, dl, hd, hg, hp, hposted⟩ := hsnap
    rcases hdone : tracker.done with f | b
    · simp [hdone] at h
    · cases b with
      | true =>
        simp only [hdone, GateResult.pass.injEq] at h
        subst h
        exact ⟨hdone, dlines, dl, [], hd, hg, hp, List.nil_prefix,
          by rw [coveredBy_nil, Finset.union_empty, hposted]⟩
      | false =>
        simp only [hdone] at h
        rcases hsub : node.MpoolSub with e | poolEvts
        · simp [hsub] at h
        · rcases hpend : node.MpoolPending with e | msgs
          · simp [hsub, hpend] at h
          · simp only [hsub, hpend] at h
            rcases hrec : recordPending tracker miner msgs with ⟨tracker', f | u⟩
            · simp [hrec] at h
            · simp only [hrec] at h
              have htr := recordPending_ok tracker tracker' miner msgs u hrec
              have hnode : nodeMessages node = msgs ++ addedMessages poolEvts := by
                simp [nodeMessages, hsub, hpend]
              rcases hdone' : tracker'.done with f | b'
              · simp [hdone'] at h
              · cases b' with
                | true =>
                  simp only [hdone', GateResult.pass.injEq] at h
                  subst h
                  refine ⟨hdone', dlines, dl, msgs, hd, hg, ?_, ?_, ?_⟩
                  · rw [htr]
                    exact hp
                  · rw [hnode]
                    exact List.prefix_append _ _
                  · rw [htr, ← hposted]
                | false =>
                  simp only [hdone'] at h
                  obtain ⟨hd', folded, hpre, hq⟩ :=
                    waitPool_pass miner tracker' tr poolEvts h
                  refine ⟨hd', dlines, dl, msgs ++ folded, hd, hg, ?_, ?_, ?_⟩
                  · rw [hq, htr]
                    exact hp
                  · rw [hnode]
                    exact (List.prefix_append_right_inj msgs).mpr hpre
                  · rw [hq, htr, coveredBy_append, ← hposted]
                    simp [Finset.union_assoc]

/-- A tick of `MineBlocksMustPost` either calls the producer once, with no
null rounds, and goes on as a tick of `MineBlocks` does, or does not call it
and ends the goroutine. -/
theorem mustPost_tick_cases (miner : TestMiner) (nulls : Int) (node : FullNode)
    (prod : Producer) :
    ((MineBlocksMustPost.tick miner nulls node prod).mineReqs = [] ∧
      (MineBlocksMustPost.tick miner nulls node prod).errors = [] ∧
      (MineBlocksMustPost.tick miner nulls node prod).status ≠ .next) ∨
    (nulls = 0 ∧
      (MineBlocksMustPost.tick miner nulls node prod).toTrace = MineBlocks.tick nulls prod) := by
  unfold MineBlocksMustPost.tick
  by_cases hn : nulls = 0
  · simp only [hn, bne_self_eq_false, Bool.false_eq_true, if_false]
    rcases node.ChainHead with e | height
    · simp
    · rcases node.StateMinerProvingDeadline with e | dlinfo
      · simp
      · by_cases hlast : wrapInt64 (height + 1) = dlinfo.Last
        · simp only [hlast, beq_self_eq_true, if_true]
          rcases gate miner node dlinfo.Index with q | q | f | q <;> simp
        · have : (wrapInt64 (height + 1) == dlinfo.Last) = false := by simpa using hlast
          simp [this]
  · have : (nulls != 0) = true := by simpa using hn
    simp [this]

/-! ## MineBlocksMustPost -/

/-- C1, as the claim states it, fails: with two partitions, nothing posted and
one pending proof message naming the partition indices 0 and 2, the tick at
the last epoch of the deadline calls the producer although partition 1 is not
in the posted set. -/
theorem mustPost_mines_with_partition_uncovered :
    (MineBlocksMustPost.tick exMiner 0 (exNode 2 [] [exPost [0, 2]] []) exProducer).mineReqs
      = [0] ∧
    (MineBlocksMustPost.tick exMiner 0 (exNode 2 [] [exPost [0, 2]] []) exProducer).tracker.isSome
      = true ∧
    ∀ tr ∈ (MineBlocksMustPost.tick exMiner 0 (exNode 2 [] [exPost [0, 2]] [])
        exProducer).tracker,
      tr.partitions.length = 2 ∧ tr.posted = {0, 2} ∧ 1 ∉ tr.posted := by
  decide

/-- C1, amended: in a tick of `MineBlocksMustPost` in which head height + 1
equals the last epoch of the proving deadline, the producer is called only if
the tracker is done, that is the number of set bits of its posted set (the
snapshot's `PostSubmissions` united with the partition indices of the pending
and added messages it went through) equals the number of partitions; every
index below the number of partitions is then posted provided the posted set
holds no index beyond them. If the context fires during the wait, before the
added messages complete the tracker, the producer is not called in that tick
and the loop returns. -/
theorem mustPost_gate (miner : TestMiner) (nulls : Int) (node : FullNode) (prod : Producer)
    (height : ChainEpoch) (dlinfo : DlInfo)
    (hhead : node.ChainHead = .ok height)
    (hdl : node.StateMinerProvingDeadline = .ok dlinfo)
    (hlast : wrapInt64 (height + 1) = dlinfo.Last) :
    ((MineBlocksMustPost.tick miner nulls node prod).mineReqs ≠ [] →
      ∃ tr dlines dl folded,
        (MineBlocksMustPost.tick miner nulls node prod).tracker = some tr ∧
        node.StateMinerDeadlines = .ok dlines ∧ dlines[dlinfo.Index]? = some dl ∧
        node.StateMinerPartitions dlinfo.Index = .ok tr.partitions ∧
        folded <+: nodeMessages node ∧
        tr.posted = dl.PostSubmissions ∪ coveredBy miner folded ∧
        tr.posted.card = tr.partitions.length ∧
        ((∀ i ∈ tr.posted, i < tr.partitions.length) →
          ∀ i < tr.partitions.length, i ∈ tr.posted)) ∧
    (∀ tr0 tr1 msgs pre post q,
      newPartitionTracker node dlinfo.Index = .ok tr0 → tr0.done = .ok false →
      node.MpoolPending = .ok msgs → recordPending tr0 miner msgs = (tr1, .ok ()) →
      tr1.done = .ok false →
      node.MpoolSub = .ok (pre ++ .ctxDone :: post) → waitPool miner tr1 pre = .blocked q →
      (MineBlocksMustPost.tick miner nulls node prod).mineReqs = [] ∧
      (nulls = 0 → (MineBlocksMustPost.tick miner nulls node prod).status = .exit)) := by
  constructor
  · intro hmine
    unfold MineBlocksMustPost.tick at hmine ⊢
    by_cases hn : nulls = 0
    · simp only [hn, bne_self_eq_false, Bool.false_eq_true, if_false, hhead, hdl, hlast,
        beq_self_eq_true, if_true] at hmine ⊢
      rcases hgate : gate miner node dlinfo.Index with tr | q | f | q
      · obtain ⟨hdone, dlines, dl, folded, hd, hg, hp, hpre, hposted⟩ :=
          gate_pass miner node dlinfo.Index tr hgate
        have hcard := ((done_iff tr).mp hdone).2
        refine ⟨tr, dlines, dl, folded, rfl, hd, hg, hp, hpre, hposted, hcard, ?_⟩
        intro hbelow i hi
        have hsub : tr.posted ⊆ Finset.range tr.partitions.length := by
          intro k hk
          exact Finset.mem_range.mpr (hbelow k hk)
        have heq := Finset.eq_of_subset_of_card_le hsub (by rw [Finset.card_range, hcard])
        rw [heq]
        exact Finset.mem_range.mpr hi
      · simp [hgate] at hmine
      · simp [hgate] at hmine
      · simp [hgate] at hmine
    · have hne : (nulls != 0) = true := by simpa using hn
      simp [hne] at hmine
  · intro tr0 tr1 msgs pre post q hnew hdone0 hpend hrec hdone1 hsub hwait
    have hgate : gate miner node dlinfo.Index = .cancelled q := by
      unfold gate
      simp only [hnew, hdone0, hsub, hpend, hrec, hdone1]
      rw [waitPool_append miner tr1 q pre _ hwait]
      simp [waitPool]
    unfold MineBlocksMustPost.tick
    by_cases hn : nulls = 0
    · simp [hn, hhead, hdl, hlast, hgate]
    · have hne : (nulls != 0) = true := by simpa using hn
      simp [hne, hn]

theorem mustPost_gate_witness :
    ∃ tr dlines dl folded,
      (MineBlocksMustPost.tick exMiner 0
        (exNode 3 [] [] [.event ⟨.MpoolAdd, exPost [0, 1]⟩, .event ⟨.MpoolAdd, exPost [2]⟩])
        exProducer).tracker = some tr ∧
      (exNode 3 [] [] [.event ⟨.MpoolAdd, exPost [0, 1]⟩,
        .event ⟨.MpoolAdd, exPost [2]⟩]).StateMinerDeadlines = .ok dlines ∧
      dlines[0]? = some dl ∧
      (exNode 3 [] [] [.event ⟨.MpoolAdd, exPost [0, 1]⟩,
        .event ⟨.MpoolAdd, exPost [2]⟩]).StateMinerPartitions 0 = .ok tr.partitions ∧
      folded <+: nodeMessages (exNode 3 [] [] [.event ⟨.MpoolAdd, exPost [0, 1]⟩,
        .event ⟨.MpoolAdd, exPost [2]⟩]) ∧
      tr.posted = dl.PostSubmissions ∪ coveredBy exMiner folded ∧
      tr.posted.card = tr.partitions.length ∧
      ((∀ i ∈ tr.posted, i < tr.partitions.length) →
        ∀ i < tr.partitions.length, i ∈ tr.posted) :=
  (mustPost_gate exMiner 0
    (exNode 3 [] [] [.event ⟨.MpoolAdd, exPost [0, 1]⟩, .event ⟨.MpoolAdd, exPost [2]⟩])
    exProducer 9 { Index := 0, Last := 10 } rfl rfl (by decide)).1 (by decide)

/-- C6: a tick of `MineBlocksMustPost` in which head height + 1 equals the last
epoch of the deadline and the read-and-reset of `nextNulls` gave nulls > 0
fails on the `require.Equal` of the null rounds: the producer is not called,
nothing else of the tick runs, and the loop ends with that failure. -/
theorem mustPost_nulls_fail (miner : TestMiner) (nulls : Int) (node : FullNode)
    (prod : Producer) (height : ChainEpoch) (dlinfo : DlInfo)
    (hhead : node.ChainHead = .ok height)
    (hdl : node.StateMinerProvingDeadline = .ok dlinfo)
    (hlast : wrapInt64 (height + 1) = dlinfo.Last)
    (hnulls : 0 < nulls) :
    (MineBlocksMustPost.tick miner nulls node prod).mineReqs = [] ∧
    (MineBlocksMustPost.tick miner nulls node prod).status =
      .failed (.nullsWhileMustPost nulls) ∧
    (MineBlocksMustPost.tick miner nulls node prod).tracker = none ∧
    (∀ (bm : BlockMiner) (r : MustPostRound) (rest : List MustPostRound),
      bm.miner = miner → r.wake = .timer → r.node = node → r.prod = prod →
      ((r.injected.foldl BlockMiner.InjectNulls bm).swapNextNulls).1 = nulls →
      (MineBlocksMustPost.loop bm (r :: rest)).2 =
        { mineReqs := [], errors := [], status := .failed (.nullsWhileMustPost nulls) } ∧
      (MineBlocksMustPost.loop bm (r :: rest)).1.nextNulls = 0) := by
  have hne : (nulls != 0) = true := by
    have : nulls ≠ 0 := by omega
    simpa using this
  have _ := hhead
  have _ := hdl
  have _ := hlast
  have htick : MineBlocksMustPost.tick miner nulls node prod =
      { mineReqs := [], errors := [], status := .failed (.nullsWhileMustPost nulls),
        tracker := none } := by
    unfold MineBlocksMustPost.tick
    simp [hne]
  refine ⟨by rw [htick], by rw [htick], by rw [htick], ?_⟩
  intro bm r rest hm hwake hnode hprod hsw
  unfold MineBlocksMustPost.loop
  simp only [hwake, hm, hnode, hprod, hsw, htick]
  exact ⟨trivial, rfl⟩

theorem mustPost_nulls_fail_witness :
    (MineBlocksMustPost.tick exMiner 2 (exNode 3 [0, 1, 2] [] []) exProducer).mineReqs = [] ∧
    (MineBlocksMustPost.tick exMiner 2 (exNode 3 [0, 1, 2] [] []) exProducer).status =
      .failed (.nullsWhileMustPost 2) :=
  ⟨(mustPost_nulls_fail exMiner 2 (exNode 3 [0, 1, 2] [] []) exProducer 9
      { Index := 0, Last := 10 } rfl rfl (by decide) (by decide)).1,
    (mustPost_nulls_fail exMiner 2 (exNode 3 [0, 1, 2] [] []) exProducer 9
      { Index := 0, Last := 10 } rfl rfl (by decide) (by decide)).2.1⟩

/-! ## After the producer -/

theorem mineBlocks_tick_status (nulls : Int) (prod : Producer) :
    (MineBlocks.tick nulls prod).mineReqs = [nulls] ∧
    (prod.MineOne = none →
      (MineBlocks.tick nulls prod).errors = [] ∧ (MineBlocks.tick nulls prod).status = .next) ∧
    (∀ e, prod.MineOne = some e → prod.ctxErr = none →
      (MineBlocks.tick nulls prod).errors = [e] ∧ (MineBlocks.tick nulls prod).status = .next) ∧
    (∀ e c, prod.MineOne = some e → prod.ctxErr = some c →
      (MineBlocks.tick nulls prod).errors = [] ∧ (MineBlocks.tick nulls prod).status = .exit) := by
  refine ⟨rfl, ?_, ?_, ?_⟩
  · intro h
    simp [MineBlocks.tick, afterMineOne, h]
  · intro e h hc
    simp [MineBlocks.tick, afterMineOne, h, hc]
  · intro e c h hc
    simp [MineBlocks.tick, afterMineOne, h, hc]

/-- C10: in a tick of `MineBlocks`, and in a tick of `MineBlocksMustPost` that
reaches the producer, with `nulls` the value read from the counter and `more`
what the loop does in the ticks after it: if the producer returns no error
the loop goes on to the next tick; if it returns an error and the context is
not cancelled the error is recorded and the loop goes on to the next tick; if
it returns an error and the context is cancelled the loop returns and the
error is not recorded. -/
theorem loops_after_producer (bm : BlockMiner) :
    (∀ (r : Round) (rest : List Round) (nulls : Int) (bm' : BlockMiner),
      r.wake = .timer →
      (r.injected.foldl BlockMiner.InjectNulls bm).swapNextNulls = (nulls, bm') →
      (r.prod.MineOne = none →
        (MineBlocks.loop bm (r :: rest)).2 =
          { mineReqs := nulls :: (MineBlocks.loop bm' rest).2.mineReqs
            errors := (MineBlocks.loop bm' rest).2.errors
            status := (MineBlocks.loop bm' rest).2.status }) ∧
      (∀ e, r.prod.MineOne = some e → r.prod.ctxErr = none →
        (MineBlocks.loop bm (r :: rest)).2 =
          { mineReqs := nulls :: (MineBlocks.loop bm' rest).2.mineReqs
            errors := e :: (MineBlocks.loop bm' rest).2.errors
            status := (MineBlocks.loop bm' rest).2.status }) ∧
      (∀ e c, r.prod.MineOne = some e → r.prod.ctxErr = some c →
        (MineBlocks.loop bm (r :: rest)).2 =
          { mineReqs := [nulls], errors := [], status := .exit })) ∧
    (∀ (r : MustPostRound) (rest : List MustPostRound) (nulls : Int) (bm' : BlockMiner),
      r.wake = .timer →
      (r.injected.foldl BlockMiner.InjectNulls bm).swapNextNulls = (nulls, bm') →
      (MineBlocksMustPost.tick bm.miner nulls r.node r.prod).mineReqs ≠ [] →
      (r.prod.MineOne = none →
        (MineBlocksMustPost.loop bm (r :: rest)).2 =
          { mineReqs := nulls :: (MineBlocksMustPost.loop bm' rest).2.mineReqs
            errors := (MineBlocksMustPost.loop bm' rest).2.errors
            status := (MineBlocksMustPost.loop bm' rest).2.status }) ∧
      (∀ e, r.prod.MineOne = some e → r.prod.ctxErr = none →
        (MineBlocksMustPost.loop bm (r :: rest)).2 =
          { mineReqs := nulls :: (MineBlocksMustPost.loop bm' rest).2.mineReqs
            errors := e :: (MineBlocksMustPost.loop bm' rest).2.errors
            status := (MineBlocksMustPost.loop bm' rest).2.status }) ∧
      (∀ e c, r.prod.MineOne = some e → r.prod.ctxErr = some c →
        (MineBlocksMustPost.loop bm (r :: rest)).2 =
          { mineReqs := [nulls], errors := [], status := .exit })) := by
  constructor
  · intro r rest nulls bm' hwake hsw
    obtain ⟨hreq, hnone, herr, hcancel⟩ := mineBlocks_tick_status nulls r.prod
    refine ⟨?_, ?_, ?_⟩
    · intro h
      obtain ⟨he, hs⟩ := hnone h
      rw [MineBlocks.loop]
      simp only [hwake, hsw, hs, Trace.andThen, hreq, he, List.singleton_append, List.nil_append]
    · intro e h hc
      obtain ⟨he, hs⟩ := herr e h hc
      rw [MineBlocks.loop]
      simp only [hwake, hsw, hs, Trace.andThen, hreq, he, List.singleton_append]
    · intro e c h hc
      obtain ⟨he, hs⟩ := hcancel e c h hc
      rw [MineBlocks.loop]
      simp only [hwake, hsw, hs]
      rw [← hreq, ← he, ← hs]
  · intro r rest nulls bm' hwake hsw hmine
    have htick : (MineBlocksMustPost.tick bm.miner nulls r.node r.prod).toTrace =
        MineBlocks.tick nulls r.prod := by
      rcases mustPost_tick_cases bm.miner nulls r.node r.prod with h | h
      · exact absurd h.1 hmine
      · exact h.2
    obtain ⟨hreq, hnone, herr, hcancel⟩ := mineBlocks_tick_status nulls r.prod
    refine ⟨?_, ?_, ?_⟩
    · intro h
      obtain ⟨he, hs⟩ := hnone h
      rw [MineBlocksMustPost.loop]
      simp only [hwake, hsw, htick, hs, Trace.andThen, hreq, he, List.singleton_append,
        List.nil_append]
    · intro e h hc
      obtain ⟨he, hs⟩ := herr e h hc
      rw [MineBlocksMustPost.loop]
      simp only [hwake, hsw, htick, hs, Trace.andThen, hreq, he, List.singleton_append]
    · intro e c h hc
      obtain ⟨he, hs⟩ := hcancel e c h hc
      rw [MineBlocksMustPost.loop]
      simp only [hwake, hsw, htick, hs]
      rw [← hreq, ← he, ← hs]

theorem loops_after_producer_witness :
    (MineBlocks.loop (NewBlockMiner exMiner)
      [{ wake := .timer, injected := [], prod := { MineOne := some ⟨7⟩, ctxErr := none } },
       { wake := .timer, injected := [], prod := exProducer }]).2 =
      { mineReqs := 0 :: (MineBlocks.loop (NewBlockMiner exMiner)
            [{ wake := .timer, injected := [], prod := exProducer }]).2.mineReqs
        errors := ⟨7⟩ :: (MineBlocks.loop (NewBlockMiner exMiner)
            [{ wake := .timer, injected := [], prod := exProducer }]).2.errors
        status := (MineBlocks.loop (NewBlockMiner exMiner)
            [{ wake := .timer, injected := [], prod := exProducer }]).2.status } :=
  ((loops_after_producer (NewBlockMiner exMiner)).1
    { wake := .timer, injected := [], prod := { MineOne := some ⟨7⟩, ctxErr := none } }
    [{ wake := .timer, injected := [], prod := exProducer }] 0 (NewBlockMiner exMiner)
    rfl rfl).2.1 ⟨7⟩ rfl rfl

/-! ## MineUntilBlock -/

theorem waitForHead_synced (ChainHead : Nat → Except GoError ChainEpoch) (epoch : ChainEpoch)
    (k : Nat) (hk : k < nloops) (hsync : ChainHead k = .ok epoch)
    (hpolls : ∀ i < k, ∃ h, ChainHead i = .ok h) (fuel i : Nat) (hik : i ≤ k)
    (hfuel : k < i + fuel) :
    (waitForHead ChainHead epoch i fuel).2 = .ok () ∧
    (waitForHead ChainHead epoch i fuel).1 ≤ k + 1 - i := by
  induction fuel generalizing i with
  | zero => omega
  | succ fuel ih =>
    unfold waitForHead
    rcases Nat.lt_or_ge i k with hlt | hge
    · obtain ⟨h, hh⟩ := hpolls i hlt
      simp only [hh]
      by_cases heq : h = epoch
      · simp only [heq, beq_self_eq_true, if_true, true_and]
        omega
      · have hne : (h == epoch) = false := by simpa using heq
        have hlast : (i == nloops - 1) = false := by
          have : i ≠ nloops - 1 := by omega
          simpa using this
        simp only [hne, hlast, Bool.false_eq_true, if_false]
        obtain ⟨h1, h2⟩ := ih (i + 1) (by omega) (by omega)
        exact ⟨h1, by omega⟩
    · have : i = k := by omega
      subst this
      simp only [hsync, beq_self_eq_true, if_true, true_and]
      omega

theorem mineUntilBlock_loop_selected (MineOne : Nat → Attempt)
    (ChainHead : Nat → Except GoError ChainEpoch) (cb : Bool) (j : Nat) (E : ChainEpoch)
    (k : Nat)
    (hmiss : ∀ i < j, (MineOne i).mineErr = none ∧ (MineOne i).err = none ∧
      (MineOne i).win = false)
    (hwin : (MineOne j).mineErr = none ∧ (MineOne j).err = none ∧
      (MineOne j).win = true ∧ (MineOne j).epoch = E)
    (hk : k < nloops) (hsync : ChainHead k = .ok E)
    (hpolls : ∀ i < k, ∃ h, ChainHead i = .ok h) (fuel i : Nat) (hij : i ≤ j)
    (hfuel : j < i + fuel) :
    (MineUntilBlock.loop MineOne ChainHead cb i fuel).attempts = j + 1 - i ∧
    (MineUntilBlock.loop MineOne ChainHead cb i fuel).callbacks = (if cb then [E] else []) ∧
    (MineUntilBlock.loop MineOne ChainHead cb i fuel).outcome = .ok () ∧
    (MineUntilBlock.loop MineOne ChainHead cb i fuel).polls ≤ k + 1 := by
  induction fuel generalizing i with
  | zero => omega
  | succ fuel ih =>
    rw [MineUntilBlock.loop]
    rcases Nat.lt_or_ge i j with hlt | hge
    · obtain ⟨h1, h2, h3⟩ := hmiss i hlt
      simp only [h1, h2, h3, Bool.false_eq_true, if_false]
      obtain ⟨a1, a2, a3, a4⟩ := ih (i + 1) (by omega) (by omega)
      exact ⟨by omega, a2, a3, a4⟩
    · have : i = j := by omega
      subst this
      obtain ⟨h1, h2, h3, h4⟩ := hwin
      obtain ⟨w1, w2⟩ := waitForHead_synced ChainHead E k hk hsync hpolls nloops 0
        (Nat.zero_le _) (by omega)
      simp only [h1, h2, h3, h4, if_true]
      rcases hw : waitForHead ChainHead E 0 nloops with ⟨n, f | u⟩
      · rw [hw] at w1
        exact absurd w1 (by simp)
      · rw [hw] at w2
        simp only [true_and]
        exact ⟨by omega, by omega⟩

theorem mineUntilBlock_loop_exhausted (MineOne : Nat → Attempt)
    (ChainHead : Nat → Except GoError ChainEpoch) (cb : Bool) (fuel i : Nat)
    (hmiss : ∀ a, i ≤ a → a < i + fuel → (MineOne a).mineErr = none ∧ (MineOne a).err = none ∧
      (MineOne a).win = false) :
    MineUntilBlock.loop MineOne ChainHead cb i fuel =
      { attempts := fuel, polls := 0, callbacks := [], outcome := .error .retriesExhausted } := by
  induction fuel generalizing i with
  | zero => rfl
  | succ fuel ih =>
    rw [MineUntilBlock.loop]
    obtain ⟨h1, h2, h3⟩ := hmiss i (Nat.le_refl _) (by omega)
    simp only [h1, h2, h3, Bool.false_eq_true, if_false]
    rw [ih (i + 1) (fun a ha hb => hmiss a (by omega) (by omega))]

/-- C7: when the producer gives no error, reports not selected on the
attempts 1..j and selected at epoch E on attempt j+1, with j < 1000, and the
head of the full node is at E at one of the first 200 polls, no poll before it
failing, `MineUntilBlock` makes exactly j+1 attempts, calls the callback (when
there is one) exactly once, with E, and returns. -/
theorem mineUntilBlock_selected (MineOne : Nat → Attempt)
    (ChainHead : Nat → Except GoError ChainEpoch) (cb : Bool) (j : Nat) (E : ChainEpoch)
    (k : Nat) (hj : j < 1000)
    (hmiss : ∀ i < j, (MineOne i).mineErr = none ∧ (MineOne i).err = none ∧
      (MineOne i).win = false)
    (hwin : (MineOne j).mineErr = none ∧ (MineOne j).err = none ∧
      (MineOne j).win = true ∧ (MineOne j).epoch = E)
    (hk : k < 200) (hsync : ChainHead k = .ok E)
    (hpolls : ∀ i < k, ∃ h, ChainHead i = .ok h) :
    (BlockMiner.MineUntilBlock MineOne ChainHead cb).attempts = j + 1 ∧
    (BlockMiner.MineUntilBlock MineOne ChainHead cb).callbacks = (if cb then [E] else []) ∧
    (BlockMiner.MineUntilBlock MineOne ChainHead cb).outcome = .ok () := by
  obtain ⟨h1, h2, h3, _⟩ := mineUntilBlock_loop_selected MineOne ChainHead cb j E k hmiss hwin
    hk hsync hpolls 1000 0 (Nat.zero_le _) (by omega)
  exact ⟨h1, h2, h3⟩

theorem mineUntilBlock_selected_witness :
    (BlockMiner.MineUntilBlock exMineOne exChainHead true).attempts = 6 ∧
    (BlockMiner.MineUntilBlock exMineOne exChainHead true).callbacks = [42] ∧
    (BlockMiner.MineUntilBlock exMineOne exChainHead true).outcome = .ok () :=
  mineUntilBlock_selected exMineOne exChainHead true 5 42 3 (by decide)
    (by
      intro i hi
      simp [exMineOne, hi])
    (by decide) (by decide) (by decide)
    (by
      intro i hi
      exact ⟨41, by simp [exChainHead, hi]⟩)

/-- C8: when the producer reports not selected, without error, on each of
1000 attempts in a row, `MineUntilBlock` makes exactly 1000 attempts, polls no
head, never calls the callback, and ends in the fatal failure. -/
theorem mineUntilBlock_exhausted (MineOne : Nat → Attempt)
    (ChainHead : Nat → Except GoError ChainEpoch) (cb : Bool)
    (hmiss : ∀ i < 1000, (MineOne i).mineErr = none ∧ (MineOne i).err = none ∧
      (MineOne i).win = false) :
    (BlockMiner.MineUntilBlock MineOne ChainHead cb).attempts = 1000 ∧
    (BlockMiner.MineUntilBlock MineOne ChainHead cb).callbacks = [] ∧
    (BlockMiner.MineUntilBlock MineOne ChainHead cb).outcome = .error .retriesExhausted := by
  unfold BlockMiner.MineUntilBlock
  rw [mineUntilBlock_loop_exhausted MineOne ChainHead cb 1000 0
    (fun a _ hb => hmiss a (by omega))]
  exact ⟨rfl, rfl, rfl⟩

theorem mineUntilBlock_exhausted_witness :
    (BlockMiner.MineUntilBlock (fun _ => { mineErr := none, win := false, epoch := 0, err := none })
      exChainHead true).attempts = 1000 ∧
    (BlockMiner.MineUntilBlock (fun _ => { mineErr := none, win := false, epoch := 0, err := none })
      exChainHead true).callbacks = [] ∧
    (BlockMiner.MineUntilBlock (fun _ => { mineErr := none, win := false, epoch := 0, err := none })
      exChainHead true).outcome = .error .retriesExhausted :=
  mineUntilBlock_exhausted _ exChainHead true (fun _ _ => ⟨rfl, rfl, rfl⟩)

/-! ## Starting twice -/

/-- C9, as the claim states it, fails: a second `MineBlocks` on a running
block miner is not refused, it starts a second background loop and replaces
the cancel function of the first. -/
theorem second_start_spawns_second_loop :
    (BlockMiner.MineBlocks exScheduler).Running ∧
    (BlockMiner.MineBlocks exScheduler).goroutines.length = 1 ∧
    (BlockMiner.MineBlocks (BlockMiner.MineBlocks exScheduler)).goroutines.length = 2 ∧
    (BlockMiner.MineBlocks (BlockMiner.MineBlocks exScheduler)).bm.cancel ≠
      (BlockMiner.MineBlocks exScheduler).bm.cancel := by
  refine ⟨?_, by decide, by decide, by decide⟩
  unfold Scheduler.Running
  decide

/-- C9, amended: starting a block miner (`MineBlocks` or `MineBlocksMustPost`)
that is already running is not an error: the start adds one more background
loop to those running, under a new context, raises the wait group by one and
replaces `bm.cancel` by the cancel function of the new context, so a
scheduler started twice has two background tasks. -/
theorem start_while_running (s : Scheduler) (h : s.Running) :
    (BlockMiner.MineBlocks s).goroutines =
      s.goroutines ++ [{ kind := .mineBlocks, ctx := s.nextCtx }] ∧
    (BlockMiner.MineBlocksMustPost s).goroutines =
      s.goroutines ++ [{ kind := .mustPost, ctx := s.nextCtx }] ∧
    2 ≤ (BlockMiner.MineBlocks s).goroutines.length ∧
    2 ≤ (BlockMiner.MineBlocksMustPost s).goroutines.length ∧
    (BlockMiner.MineBlocks s).bm.cancel = .ofContext s.nextCtx ∧
    (BlockMiner.MineBlocksMustPost s).bm.cancel = .ofContext s.nextCtx ∧
    (BlockMiner.MineBlocks s).bm.wg = s.bm.wg + 1 ∧
    (BlockMiner.MineBlocksMustPost s).bm.wg = s.bm.wg + 1 := by
  have hlen : 1 ≤ s.goroutines.length := by
    unfold Scheduler.Running at h
    exact List.length_pos.mpr h
  refine ⟨rfl, rfl, ?_, ?_, rfl, rfl, rfl, rfl⟩
  · simp only [BlockMiner.MineBlocks, Scheduler.start, List.length_append, List.length_singleton]
    omega
  · simp only [BlockMiner.MineBlocksMustPost, Scheduler.start, List.length_append,
      List.length_singleton]
    omega

theorem start_while_running_witness :
    (BlockMiner.MineBlocks (BlockMiner.MineBlocks exScheduler)).goroutines =
      (BlockMiner.MineBlocks exScheduler).goroutines ++
        [{ kind := .mineBlocks, ctx := (BlockMiner.MineBlocks exScheduler).nextCtx }] :=
  (start_while_running (BlockMiner.MineBlocks exScheduler)
    (by unfold Scheduler.Running; decide)).1

end Kit
